import Mathlib

/-!
Shallow embedding of the Memory and Retrieval Engine of the Ron repository
(files chunker.py, embeddings.py, memory_manager.py), together with proofs
of the specification claims about chunking, the vector index store and the
memory log.
-/

namespace Ron

/-! ### Chunker (src/python_files/chunker.py) -/

/-- Python ASCII whitespace, as matched by the regex whitespace class. -/
def isPySpace (c : Char) : Bool :=
  c = ' ' || c = '\t' || c = '\n' || c = '\r' || c = '\x0b' || c = '\x0c'

/-- Python str.strip at the character-list level: drop leading and trailing
whitespace. -/
def pyStripChars (l : List Char) : List Char :=
  List.rdropWhile isPySpace (l.dropWhile isPySpace)

/-- Python str.strip. -/
def pyStrip (s : String) : String :=
  String.mk (pyStripChars s.data)

/-- One pass of the whitespace-collapsing substitution in Chunker._normalize:
every whitespace run becomes a single space.  The Boolean records whether the
previous character was whitespace.  The preliminary replacement of newline and
carriage return by spaces in the source is subsumed by the collapse. -/
def collapseWsAux : Bool → List Char → List Char
  | _, [] => []
  | prevWs, c :: rest =>
    if isPySpace c then
      if prevWs then collapseWsAux true rest
      else ' ' :: collapseWsAux true rest
    else c :: collapseWsAux false rest

/-- Chunker._normalize: collapse whitespace runs to single spaces, trim ends. -/
def Chunker.normalize (s : String) : String :=
  pyStrip (String.mk (collapseWsAux false s.data))

/-- Sentence-terminal punctuation used by Chunker._split_sentences. -/
def sentenceTerminal (c : Char) : Bool :=
  c = '.' || c = '!' || c = '?'

/-- The regex split of Chunker._split_sentences (split at whitespace preceded
by sentence-terminal punctuation, consuming the whitespace), specialised to
its only argument shape: normalized text, in which every whitespace run is
already a single space.  The second argument accumulates the current piece in
reverse. -/
def Chunker.splitSentencesAux : List Char → List Char → List (List Char)
  | [], buf => [buf.reverse]
  | c :: rest, [] => Chunker.splitSentencesAux rest [c]
  | c :: rest, p :: buf =>
    if c = ' ' && sentenceTerminal p then
      (p :: buf).reverse :: Chunker.splitSentencesAux rest []
    else
      Chunker.splitSentencesAux rest (c :: p :: buf)

/-- Chunker._split_sentences: regex split, then strip each piece and drop the
empty ones. -/
def Chunker.splitSentences (s : String) : List String :=
  (((Chunker.splitSentencesAux s.data []).map pyStripChars).filter
      (fun l => l ≠ [])).map String.mk

/-- Chunker.MAX_CHUNK_SIZE. -/
def Chunker.MAX_CHUNK_SIZE : Nat := 600

/-- The sentence-grouping loop of Chunker._group, with the running buffer as
an explicit argument (the source initialises it to the empty string). -/
def Chunker.groupAux : List String → String → List String
  | [], buf => if pyStrip buf ≠ "" then [pyStrip buf] else []
  | s :: rest, buf =>
    if buf.length + s.length + 1 > Chunker.MAX_CHUNK_SIZE then
      (if buf ≠ "" then [pyStrip buf] else []) ++ Chunker.groupAux rest s
    else
      Chunker.groupAux rest (if buf ≠ "" then buf ++ " " ++ s else s)

/-- Chunker._group. -/
def Chunker.group (sentences : List String) : List String :=
  Chunker.groupAux sentences ""

/-- Chunker.chunk_text: empty or whitespace-only input yields no chunks;
otherwise normalize, split into sentences and group. -/
def Chunker.chunk_text (text : String) : List String :=
  if pyStrip text = "" then []
  else Chunker.group (Chunker.splitSentences (Chunker.normalize text))

/-! ### Vector Index Store (src/python_files/embeddings.py)

Embedding vectors are modelled with integer components; the embedding
collaborator is an explicit function parameter that may fail.  Python dicts
are modelled as insertion-ordered association lists. -/

/-- An embedding vector. -/
abbrev Vec := List Int

/-- A metadata mapping (Python dict of strings, insertion ordered). -/
abbrev Meta := List (String × String)

/-- One value of the identifier map: chunk id, chunk text and metadata. -/
structure Record where
  chunk_id : String
  text : String
  metadata : Meta
deriving Repr, DecidableEq

/-- A Python dict key of the identifier map: an int when inserted in memory
by add_chunk, a string after a JSON save/load round trip. -/
inductive PyKey where
  | pint (n : Int)
  | pstr (s : String)
deriving Repr, DecidableEq

/-- Python dict assignment: overwrite in place if the key is present,
otherwise append (dicts preserve insertion order). -/
def dictInsert {α β : Type} [DecidableEq α] (m : List (α × β)) (k : α) (v : β) :
    List (α × β) :=
  if m.any (fun p => p.1 = k) then
    m.map (fun p => if p.1 = k then (k, v) else p)
  else m ++ [(k, v)]

/-- Python dict lookup. -/
def dictFind {α β : Type} [DecidableEq α] (m : List (α × β)) (k : α) : Option β :=
  (m.find? (fun p => p.1 = k)).map (fun p => p.2)

/-- The state of an EmbeddingEngine: the text_chunks directory, the in-memory
FAISS index rows and id_map dict, and the two persisted artifacts (none means
the file is absent). -/
structure EngineState where
  chunkFiles : List (String × String)
  index : List Vec
  idMap : List (PyKey × Record)
  diskIndex : Option (List Vec)
  diskMap : Option (List (String × Record))
deriving Repr, DecidableEq

/-- The JSON serialisation of a dict key: json.dumps writes an int key as its
decimal string. -/
def jsonKey : PyKey → String
  | .pint n => toString n
  | .pstr s => s

/-- EmbeddingEngine._save_index: write the index and the id map to disk;
JSON object keys become strings. -/
def EmbeddingEngine.save_index (st : EngineState) : EngineState :=
  { st with
    diskIndex := some st.index,
    diskMap := some (st.idMap.map (fun p => (jsonKey p.1, p.2))) }

/-- EmbeddingEngine._load_index, run by a fresh instance over the same disk
artifacts: when both files are present they are deserialised (JSON object
keys parse as strings); otherwise the engine starts with an empty index and
an empty map. -/
def EmbeddingEngine.load_index (st : EngineState) : EngineState :=
  match st.diskIndex, st.diskMap with
  | some ix, some m =>
      { st with index := ix, idMap := m.map (fun p => (PyKey.pstr p.1, p.2)) }
  | _, _ => { st with index := [], idMap := [] }

/-- A fresh engine with nothing on disk. -/
def freshEngine : EngineState :=
  { chunkFiles := [], index := [], idMap := [], diskIndex := none, diskMap := none }

/-- EmbeddingEngine.embed_text: call the embedding collaborator, wrapping any
failure in a RuntimeError with the Embedding Error message. -/
def EmbeddingEngine.embed_text (embed : String → Except String Vec)
    (text : String) : Except String Vec :=
  match embed text with
  | .ok v => .ok v
  | .error e => .error ("[Embedding Error] " ++ e)

/-- EmbeddingEngine.add_chunk: write the chunk text file, then embed; on
success append the vector to the index, insert the record into the id map at
integer key len(id_map), and persist both artifacts; on failure propagate
with only the chunk file written. -/
def EmbeddingEngine.add_chunk (embed : String → Except String Vec)
    (st : EngineState) (text : String) (metadata : Meta) :
    Except String Unit × EngineState :=
  let chunkId := "chunk_" ++ toString (st.idMap.length + 1)
  let st1 := { st with
    chunkFiles := dictInsert st.chunkFiles (chunkId ++ ".txt") text }
  match EmbeddingEngine.embed_text embed text with
  | .error e => (.error e, st1)
  | .ok emb =>
    let st2 := { st1 with
      index := st1.index ++ [emb],
      idMap := dictInsert st1.idMap (PyKey.pint st1.idMap.length)
                 { chunk_id := chunkId, text := text, metadata := metadata } }
    (.ok (), EmbeddingEngine.save_index st2)

/-- Squared Euclidean distance between two vectors (FAISS IndexFlatL2). -/
def sqDist (a b : Vec) : Int :=
  ((a.zip b).map (fun p => (p.1 - p.2) * (p.1 - p.2))).sum

/-- Insertion into a list of (distance, row) pairs sorted by distance, ties
by row id. -/
def insertScored (x : Int × Int) : List (Int × Int) → List (Int × Int)
  | [] => [x]
  | y :: ys =>
    if x.1 < y.1 || (x.1 = y.1 && x.2 < y.2) then x :: y :: ys
    else y :: insertScored x ys

/-- Sort (distance, row) pairs by ascending distance, ties by row id. -/
def sortScored : List (Int × Int) → List (Int × Int)
  | [] => []
  | x :: xs => insertScored x (sortScored xs)

/-- FAISS IndexFlatL2.search: the row ids of the k nearest vectors by squared
L2 distance, best first, padded with -1 when k exceeds the number of rows. -/
def faissSearch (index : List Vec) (q : Vec) (k : Nat) : List Int :=
  let scored := index.enum.map (fun p => (sqDist q p.2, (p.1 : Int)))
  ((sortScored scored).map (fun p => p.2)).take k
    ++ List.replicate (k - index.length) (-1)

/-- EmbeddingEngine.search: empty map means an immediate empty result with no
embedding call; otherwise embed the query, run the FAISS search and keep the
records of returned row ids that are keys of the id map.  The second component
counts calls to the embedding collaborator. -/
def EmbeddingEngine.search (embed : String → Except String Vec)
    (st : EngineState) (query : String) (k : Nat) :
    Except String (List Record) × Nat :=
  if st.idMap.isEmpty then (.ok [], 0)
  else
    match EmbeddingEngine.embed_text embed query with
    | .error e => (.error e, 1)
    | .ok v =>
      let idxs := faissSearch st.index v k
      (.ok (idxs.filterMap (fun i => dictFind st.idMap (PyKey.pint i))), 1)

/-! ### Memory Log and Retrieval Facade (src/python_files/memory_manager.py) -/

/-- One chunk record stored inside a memory entry. -/
structure ChunkRec where
  text : String
  metadata : Meta
deriving Repr, DecidableEq

/-- One entry of the memory log. -/
structure MemoryEntry where
  timestamp : String
  text : String
  source : String
  metadata : Meta
  chunks : List ChunkRec
deriving Repr, DecidableEq

/-- The state of a MemoryManager: the write flag, the in-memory log, the
engine, and the two persisted log files (absence modelled as the empty
list). -/
structure MMState where
  allow_write : Bool
  memory : List MemoryEntry
  eng : EngineState
  diskMemory : List MemoryEntry
  backupMemory : List MemoryEntry
deriving Repr, DecidableEq

/-- The per-chunk metadata dict literal of MemoryManager.add: timestamp and
source entries followed by the caller metadata, later keys overriding. -/
def mergeMeta (ts src : String) (md : Meta) : Meta :=
  md.foldl (fun m p => dictInsert m p.1 p.2) [("timestamp", ts), ("source", src)]

/-- Result of the embed-and-add loop of MemoryManager.add. -/
structure LoopOut where
  result : Except String Unit
  eng : EngineState
  recs : List ChunkRec
  calls : Nat
deriving Repr

/-- The for-loop of MemoryManager.add: add each chunk to the engine, collect
the chunk records; an exception propagates at once, keeping the engine state
mutated so far.  calls counts the add_chunk invocations made. -/
def addChunksLoop (embed : String → Except String Vec) (meta : Meta) :
    EngineState → List String → LoopOut
  | eng, [] => { result := .ok (), eng := eng, recs := [], calls := 0 }
  | eng, c :: rest =>
    match EmbeddingEngine.add_chunk embed eng c meta with
    | (.error e, eng1) => { result := .error e, eng := eng1, recs := [], calls := 1 }
    | (.ok _, eng1) =>
      let out := addChunksLoop embed meta eng1 rest
      { result := out.result, eng := out.eng,
        recs := { text := c, metadata := meta } :: out.recs,
        calls := out.calls + 1 }

/-- Result of MemoryManager.add, instrumented with how often the chunker and
the vector index store were invoked. -/
structure AddOut where
  result : Except String Bool
  state : MMState
  chunkerCalls : Nat
  storeCalls : Nat
deriving Repr

/-- MemoryManager.add.  allowMemoryWrite is the process-wide flag from
config.py; now is the timestamp produced by the clock; embed is the embedding
collaborator.  Returns ok false without side effects when writing is
disabled; on success appends one entry and rewrites the log and its backup;
an embedding failure propagates, keeping the engine state mutated so far and
leaving the log alone. -/
def MemoryManager.add (allowMemoryWrite : Bool)
    (embed : String → Except String Vec) (now : String) (st : MMState)
    (text source : String) (md : Meta) : AddOut :=
  if !st.allow_write || !allowMemoryWrite then
    { result := .ok false, state := st, chunkerCalls := 0, storeCalls := 0 }
  else
    let meta := mergeMeta now source md
    let chunks := Chunker.chunk_text text
    let out := addChunksLoop embed meta st.eng chunks
    match out.result with
    | .error e =>
      { result := .error e, state := { st with eng := out.eng },
        chunkerCalls := 1, storeCalls := out.calls }
    | .ok _ =>
      let entry : MemoryEntry :=
        { timestamp := now, text := text, source := source, metadata := md,
          chunks := out.recs }
      let mem := st.memory ++ [entry]
      { result := .ok true,
        state := { st with
                     eng := out.eng,
                     memory := mem,
                     diskMemory := mem,
                     backupMemory := mem },
        chunkerCalls := 1, storeCalls := out.calls }

/-- MemoryManager.latest: Python memory[-n:].  For n = 0 the slice [-0:] is
[0:], the whole list; for n ≥ 1 it is the last min(n, len) entries. -/
def MemoryManager.latest (st : MMState) (n : Nat) : List MemoryEntry :=
  if n = 0 then st.memory else st.memory.drop (st.memory.length - n)

/-- Python str.lower, character by character. -/
def pyLower (s : String) : String :=
  String.mk (s.data.map Char.toLower)

/-- Python substring containment (needle in hay). -/
def containsSub (needle : List Char) : List Char → Bool
  | [] => needle.isEmpty
  | c :: t => needle.isPrefixOf (c :: t) || containsSub needle t

/-- The keyword-fallback test of MemoryManager.search: the lowered query is a
substring of the lowered entry text. -/
def entryMatches (query : String) (en : MemoryEntry) : Bool :=
  containsSub (pyLower query).data (pyLower en.text).data

/-- An element of the facade search result: either a record from the vector
index store or a whole memory entry from the keyword fallback. -/
inductive FacadeResult where
  | fromIndex (r : Record)
  | fromLog (e : MemoryEntry)
deriving Repr, DecidableEq

/-- MemoryManager.search: semantic search first; an empty semantic result
falls back to the first k case-insensitive substring matches over the log. -/
def MemoryManager.search (embed : String → Except String Vec) (st : MMState)
    (query : String) (k : Nat) : Except String (List FacadeResult) :=
  match EmbeddingEngine.search embed st.eng query k with
  | (.error e, _) => .error e
  | (.ok results, _) =>
    if results.isEmpty then
      .ok (((st.memory.filter (entryMatches query)).take k).map .fromLog)
    else
      .ok (results.map .fromIndex)

/-! ### Specification-side definitions and auxiliary notions -/

/-- Joining chunks with single spaces (the separating rule of the spec). -/
def joinSp : List String → String
  | [] => ""
  | [s] => s
  | s :: t :: rest => s ++ " " ++ joinSp (t :: rest)

/-- Character-level joining with single spaces. -/
def joinChar : List (List Char) → List Char
  | [] => []
  | [p] => p
  | p :: q :: rest => p ++ ' ' :: joinChar (q :: rest)

/-- A character list with no leading and no trailing whitespace. -/
def noWsEnds (l : List Char) : Bool :=
  l.head?.all (fun c => !isPySpace c) && l.getLast?.all (fun c => !isPySpace c)

/-- No two adjacent whitespace characters. -/
def noAdjWs : List Char → Bool
  | [] => true
  | [_] => true
  | a :: b :: r => !(isPySpace a && isPySpace b) && noAdjWs (b :: r)

/-- The spec wording of the keyword fallback, for comparison with the code:
the first k matches encountered, in log order. -/
def specFirstMatches (p : MemoryEntry → Bool) : Nat → List MemoryEntry → List MemoryEntry
  | _, [] => []
  | 0, _ :: _ => []
  | k + 1, e :: rest =>
    if p e then e :: specFirstMatches p k rest else specFirstMatches p (k + 1) rest

/-- The record created by the i-th successful add_chunk call (0-based);
chunk file names are 1-based in the source. -/
def mkRec (i : Nat) (t : String) (m : Meta) : Record :=
  { chunk_id := "chunk_" ++ toString (i + 1), text := t, metadata := m }

/-- The expected id-map segment for successive adds of the given texts
starting at identifier i. -/
def shapeMapFrom (i : Nat) : List (String × Meta) → List (PyKey × Record)
  | [] => []
  | (t, m) :: rest => (PyKey.pint i, mkRec i t m) :: shapeMapFrom (i + 1) rest

/-- Iterated successful add_chunk calls with a total embedding collaborator. -/
def runAdds (f : String → Vec) (st : EngineState) : List (String × Meta) → EngineState
  | [] => st
  | (t, m) :: rest =>
      runAdds f (EmbeddingEngine.add_chunk (fun s => .ok (f s)) st t m).2 rest

/-- The in-process shape of the id map: entry j carries the integer key j. -/
def CanonicalMap (m : List (PyKey × Record)) : Prop :=
  ∀ (j : Nat) (hj : j < m.length), (m.get ⟨j, hj⟩).1 = PyKey.pint j

/-! ### Concrete instances used by counterexamples and witnesses -/

/-- An embedding collaborator that always returns the vector [1]. -/
def c1Embed : String → Except String Vec := fun _ => .ok [1]

/-- Store state after one successful add_chunk from a fresh engine. -/
def c1Pre : EngineState :=
  (EmbeddingEngine.add_chunk c1Embed freshEngine "hello" []).2

/-- A fresh store instance loading the artifacts persisted by c1Pre. -/
def c1Post : EngineState := EmbeddingEngine.load_index c1Pre

/-- A 300-character sentence. -/
def c2SentA : String := String.mk (List.replicate 299 'a' ++ ['.'])

/-- A 301-character sentence. -/
def c2SentB : String := String.mk (List.replicate 300 'b' ++ ['.'])

/-- A text that the Chunker splits into exactly the two chunks c2SentA and
c2SentB (their lengths exceed the 600-character budget together). -/
def c2Text : String := c2SentA ++ " " ++ c2SentB

/-- An embedding collaborator that succeeds on c2SentA and fails otherwise. -/
def c2Embed : String → Except String Vec :=
  fun t => if t = c2SentA then .ok [1] else .error "quota"

/-- A memory manager state with an empty log and a fresh engine. -/
def c2MM : MMState :=
  { allow_write := true, memory := [], eng := freshEngine,
    diskMemory := [], backupMemory := [] }

/-- The outcome of the failing two-chunk add. -/
def c2Out : AddOut :=
  MemoryManager.add true c2Embed "2026-01-01 00:00:00" c2MM c2Text "chat" []

/-- Store state after one successful add_chunk, for the reload claim. -/
def c3St : EngineState := runAdds (fun _ => [1]) freshEngine [("hello", [])]

/-- A concrete total embedding collaborator for the identifier claim. -/
def c3f : String → Vec := fun t => if t = "alpha" then [1] else [2]

/-- Two concrete items to add for the identifier claim. -/
def c3Items : List (String × Meta) := [("alpha", []), ("beta", [])]

/-- An embedding collaborator that always fails. -/
def c4Embed : String → Except String Vec := fun _ => .error "boom"

/-- A sample memory entry. -/
def c10Entry : MemoryEntry :=
  { timestamp := "t0", text := "alpha", source := "chat", metadata := [], chunks := [] }

/-- A memory manager state whose log has exactly one entry. -/
def c10St : MMState :=
  { allow_write := true, memory := [c10Entry], eng := freshEngine,
    diskMemory := [c10Entry], backupMemory := [c10Entry] }

/-- A memory manager state with writes disabled per instance. -/
def c9St : MMState :=
  { allow_write := false, memory := [c10Entry], eng := freshEngine,
    diskMemory := [c10Entry], backupMemory := [c10Entry] }

/-- A log entry matching the query tex, and one not matching. -/
def c6Hit : MemoryEntry :=
  { timestamp := "t1", text := "Latex and TeX notes", source := "chat",
    metadata := [], chunks := [] }

/-- A log entry not containing the query. -/
def c6Miss : MemoryEntry :=
  { timestamp := "t2", text := "grocery list", source := "chat",
    metadata := [], chunks := [] }

/-- A manager state with an empty index and two log entries, so that search
exercises the keyword fallback. -/
def c6St : MMState :=
  { allow_write := true, memory := [c6Miss, c6Hit], eng := freshEngine,
    diskMemory := [], backupMemory := [] }

/-- A short two-sentence text for the chunk-size witness. -/
def c8Small : String := "Hi there. Bye."

/-- A single 601-character sentence (no sentence-terminal punctuation). -/
def c8Big : String := String.mk (List.replicate 601 'x')

/-! ### Basic lemmas: whitespace, stripping, strings -/

theorem sentenceTerminal_not_ws {c : Char} (h : sentenceTerminal c = true) :
    isPySpace c = false := by
  simp only [sentenceTerminal, Bool.or_eq_true, decide_eq_true_eq] at h
  rcases h with (h | h) | h <;> subst h <;> decide

theorem string_eq_empty_iff {s : String} : s = "" ↔ s.data = [] := by
  constructor
  · intro h; rw [h]
  · intro h
    cases s with
    | mk d => cases h; rfl

theorem head?_pyStripChars (l : List Char) :
    (pyStripChars l).head?.all (fun c => !isPySpace c) = true := by
  unfold pyStripChars
  cases hs : (List.rdropWhile isPySpace (l.dropWhile isPySpace)).head? with
  | none => rfl
  | some c =>
    have hd : (l.dropWhile isPySpace).head? = some c := by
      obtain ⟨t, ht⟩ := List.rdropWhile_prefix isPySpace (l.dropWhile isPySpace)
      rw [← ht, List.head?_append, hs]
      rfl
    have hnot := List.head?_dropWhile_not isPySpace l
    rw [hd] at hnot
    simpa using hnot

theorem getLast?_pyStripChars (l : List Char) :
    (pyStripChars l).getLast?.all (fun c => !isPySpace c) = true := by
  unfold pyStripChars List.rdropWhile
  rw [List.getLast?_reverse]
  cases hs : ((l.dropWhile isPySpace).reverse.dropWhile isPySpace).head? with
  | none => rfl
  | some c =>
    have hnot := List.head?_dropWhile_not isPySpace (l.dropWhile isPySpace).reverse
    rw [hs] at hnot
    simpa using hnot

theorem noWsEnds_pyStripChars (l : List Char) : noWsEnds (pyStripChars l) = true := by
  unfold noWsEnds
  rw [head?_pyStripChars, getLast?_pyStripChars]
  rfl

theorem pyStripChars_eq_self {l : List Char} (h : noWsEnds l = true) :
    pyStripChars l = l := by
  unfold noWsEnds at h
  obtain ⟨h1, h2⟩ := Bool.and_eq_true_iff.mp h
  have hdw : l.dropWhile isPySpace = l := by
    cases l with
    | nil => rfl
    | cons a t =>
      simp only [List.head?_cons, Option.all_some] at h1
      have ha : isPySpace a = false := by simpa using h1
      simp [List.dropWhile_cons, ha]
  unfold pyStripChars
  rw [hdw, List.rdropWhile_eq_self_iff]
  intro hl
  rw [List.getLast?_eq_getLast _ hl, Option.all_some] at h2
  simpa using h2

theorem pyStrip_eq_self {s : String} (h : noWsEnds s.data = true) : pyStrip s = s := by
  unfold pyStrip
  rw [pyStripChars_eq_self h]

theorem length_pyStripChars_le (l : List Char) :
    (pyStripChars l).length ≤ l.length := by
  unfold pyStripChars List.rdropWhile
  calc ((l.dropWhile isPySpace).reverse.dropWhile isPySpace).reverse.length
      = ((l.dropWhile isPySpace).reverse.dropWhile isPySpace).length := by
        rw [List.length_reverse]
    _ ≤ (l.dropWhile isPySpace).reverse.length :=
        (List.dropWhile_suffix isPySpace).sublist.length_le
    _ = (l.dropWhile isPySpace).length := by rw [List.length_reverse]
    _ ≤ l.length := (List.dropWhile_suffix isPySpace).sublist.length_le

theorem pyStripChars_eq_nil_iff {l : List Char} :
    pyStripChars l = [] ↔ ∀ c ∈ l, isPySpace c = true := by
  unfold pyStripChars
  rw [List.rdropWhile_eq_nil_iff]
  constructor
  · intro h c hc
    have hsplit := List.takeWhile_append_dropWhile (p := isPySpace) (l := l)
    rw [← hsplit] at hc
    rcases List.mem_append.mp hc with hc | hc
    · exact List.mem_takeWhile_imp hc
    · exact h c hc
  · intro h c hc
    exact h c ((List.dropWhile_suffix isPySpace).sublist.subset hc)

theorem pyStrip_eq_empty_iff {s : String} :
    pyStrip s = "" ↔ ∀ c ∈ s.data, isPySpace c = true := by
  rw [← pyStripChars_eq_nil_iff]
  unfold pyStrip
  constructor
  · intro h
    have := congrArg String.data h
    simpa using this
  · intro h
    rw [h]

/-! ### Lemmas about normalization -/

theorem head?_collapseWsAux_true (l : List Char) :
    (collapseWsAux true l).head?.all (fun c => !isPySpace c) = true := by
  induction l with
  | nil => rfl
  | cons c rest ih =>
    by_cases hc : isPySpace c = true
    · simpa [collapseWsAux, hc] using ih
    · simp [collapseWsAux, hc]

theorem noAdjWs_cons {a : Char} {l : List Char} :
    noAdjWs (a :: l) =
      (l.head?.all (fun b => !(isPySpace a && isPySpace b)) && noAdjWs l) := by
  cases l with
  | nil => simp [noAdjWs]
  | cons b r => simp [noAdjWs]

theorem noAdjWs_collapseWsAux (l : List Char) :
    ∀ b, noAdjWs (collapseWsAux b l) = true := by
  induction l with
  | nil => intro b; rfl
  | cons c rest ih =>
    intro b
    by_cases hc : isPySpace c = true
    · cases b with
      | true => simpa [collapseWsAux, hc] using ih true
      | false =>
        cases hr : collapseWsAux true rest with
        | nil => simp [collapseWsAux, hc, hr, noAdjWs]
        | cons x xs =>
          have hh := head?_collapseWsAux_true rest
          rw [hr] at hh
          simp only [List.head?_cons, Option.all_some] at hh
          have hx : isPySpace x = false := by simpa using hh
          have h2 := ih true
          rw [hr] at h2
          simp [collapseWsAux, hc, hr, noAdjWs, hx, h2]
    · cases hr : collapseWsAux false rest with
      | nil => simp [collapseWsAux, hc, hr, noAdjWs]
      | cons x xs =>
        have hcf : isPySpace c = false := by
          cases hy : isPySpace c
          · rfl
          · exact absurd hy hc
        have h2 := ih false
        rw [hr] at h2
        simp [collapseWsAux, hc, hr, noAdjWs, hcf, h2]

theorem noAdjWs_append_right {l t : List Char} (h : noAdjWs (l ++ t) = true) :
    noAdjWs t = true := by
  induction l with
  | nil => simpa using h
  | cons a l ih =>
    apply ih
    rw [List.cons_append, noAdjWs_cons] at h
    exact (Bool.and_eq_true_iff.mp h).2

theorem noAdjWs_append_left {l t : List Char} (h : noAdjWs (l ++ t) = true) :
    noAdjWs l = true := by
  induction l with
  | nil => rfl
  | cons a l ih =>
    rw [List.cons_append, noAdjWs_cons] at h
    obtain ⟨h1, h2⟩ := Bool.and_eq_true_iff.mp h
    rw [noAdjWs_cons]
    apply Bool.and_eq_true_iff.mpr
    refine ⟨?_, ih h2⟩
    cases l with
    | nil => rfl
    | cons b r => simpa using h1

theorem noAdjWs_pyStripChars {l : List Char} (h : noAdjWs l = true) :
    noAdjWs (pyStripChars l) = true := by
  unfold pyStripChars
  obtain ⟨t, ht⟩ := List.dropWhile_suffix (l := l) isPySpace
  have h1 : noAdjWs (l.dropWhile isPySpace) = true := by
    rw [← ht] at h
    exact noAdjWs_append_right h
  obtain ⟨u, hu⟩ := List.rdropWhile_prefix isPySpace (l.dropWhile isPySpace)
  rw [← hu] at h1
  exact noAdjWs_append_left h1

theorem normalize_data (s : String) :
    (Chunker.normalize s).data = pyStripChars (collapseWsAux false s.data) := rfl

theorem noAdjWs_normalize (s : String) : noAdjWs (Chunker.normalize s).data = true := by
  rw [normalize_data]
  exact noAdjWs_pyStripChars (noAdjWs_collapseWsAux _ false)

theorem noWsEnds_normalize (s : String) : noWsEnds (Chunker.normalize s).data = true := by
  rw [normalize_data]
  exact noWsEnds_pyStripChars _

theorem collapseWsAux_all_ws {l : List Char} (h : ∀ c ∈ l, isPySpace c = true) :
    ∀ b, ∀ c ∈ collapseWsAux b l, isPySpace c = true := by
  induction l with
  | nil => intro b c hc; simp [collapseWsAux] at hc
  | cons a rest ih =>
    intro b c hc
    have ha : isPySpace a = true := h a (by simp)
    have hr : ∀ d ∈ rest, isPySpace d = true := fun d hd => h d (by simp [hd])
    cases b with
    | true =>
      simp only [collapseWsAux, ha, if_true] at hc
      exact ih hr true c hc
    | false =>
      simp [collapseWsAux, ha] at hc
      rcases hc with hc | hc
      · subst hc; decide
      · exact ih hr true c hc

theorem collapseWsAux_exists_not_ws {l : List Char}
    (h : ∃ c ∈ l, isPySpace c = false) :
    ∀ b, ∃ d ∈ collapseWsAux b l, isPySpace d = false := by
  induction l with
  | nil => obtain ⟨c, hc, _⟩ := h; cases hc
  | cons a rest ih =>
    intro b
    obtain ⟨c, hc, hw⟩ := h
    by_cases ha : isPySpace a = true
    · have hcr : c ∈ rest := by
        rcases List.mem_cons.mp hc with h0 | h0
        · subst h0; rw [ha] at hw; cases hw
        · exact h0
      obtain ⟨d, hd, hdw⟩ := ih ⟨c, hcr, hw⟩ true
      cases b with
      | true => exact ⟨d, by simpa [collapseWsAux, ha] using hd, hdw⟩
      | false =>
        refine ⟨d, ?_, hdw⟩
        simp [collapseWsAux, ha]
        exact Or.inr hd
    · have haf : isPySpace a = false := by
        cases hy : isPySpace a
        · rfl
        · exact absurd hy ha
      exact ⟨a, by simp [collapseWsAux, haf], haf⟩

theorem normalize_eq_empty_iff {s : String} :
    Chunker.normalize s = "" ↔ pyStrip s = "" := by
  rw [string_eq_empty_iff (s := Chunker.normalize s), normalize_data,
      pyStripChars_eq_nil_iff, pyStrip_eq_empty_iff]
  constructor
  · intro h c hc
    by_contra hcw
    have hw : isPySpace c = false := by
      cases hx : isPySpace c
      · rfl
      · exact absurd hx hcw
    obtain ⟨d, hd, hdw⟩ := collapseWsAux_exists_not_ws ⟨c, hc, hw⟩ false
    rw [h d hd] at hdw
    cases hdw
  · intro h
    exact collapseWsAux_all_ws h false

theorem chunk_text_of_empty {text : String} (h : pyStrip text = "") :
    Chunker.chunk_text text = [] := by
  unfold Chunker.chunk_text
  simp [h]

/-! ### Lemmas about sentence splitting -/

theorem splitSentencesAux_ne_nil (l : List Char) :
    ∀ buf, Chunker.splitSentencesAux l buf ≠ [] := by
  induction l with
  | nil => intro buf; simp [Chunker.splitSentencesAux]
  | cons c rest ih =>
    intro buf
    cases buf with
    | nil => simpa [Chunker.splitSentencesAux] using ih [c]
    | cons p b =>
      by_cases h : (c = ' ' && sentenceTerminal p) = true
      · simp [Chunker.splitSentencesAux, h]
      · simpa [Chunker.splitSentencesAux, h] using ih (c :: p :: b)

theorem joinChar_cons_ne {x : List Char} {ys : List (List Char)} (h : ys ≠ []) :
    joinChar (x :: ys) = x ++ ' ' :: joinChar ys := by
  cases ys with
  | nil => cases h rfl
  | cons y ys2 => rfl

theorem joinChar_splitSentencesAux (l : List Char) :
    ∀ buf, joinChar (Chunker.splitSentencesAux l buf) = buf.reverse ++ l := by
  induction l with
  | nil => intro buf; simp [Chunker.splitSentencesAux, joinChar]
  | cons c rest ih =>
    intro buf
    cases buf with
    | nil =>
      have h1 : Chunker.splitSentencesAux (c :: rest) [] =
          Chunker.splitSentencesAux rest [c] := rfl
      rw [h1, ih [c]]
      simp
    | cons p b =>
      by_cases h : (c = ' ' && sentenceTerminal p) = true
      · have hcp := h
        simp only [Bool.and_eq_true, decide_eq_true_eq] at hcp
        obtain ⟨hc, hp⟩ := hcp
        have heq : Chunker.splitSentencesAux (c :: rest) (p :: b) =
            (p :: b).reverse :: Chunker.splitSentencesAux rest [] := by
          simp [Chunker.splitSentencesAux, h]
        rw [heq, joinChar_cons_ne (splitSentencesAux_ne_nil rest []), ih []]
        simp [hc]
      · have heq : Chunker.splitSentencesAux (c :: rest) (p :: b) =
            Chunker.splitSentencesAux rest (c :: p :: b) := by
          simp [Chunker.splitSentencesAux, h]
        rw [heq, ih]
        simp

theorem splitSentencesAux_pieces_good (l : List Char) :
    ∀ buf,
      noAdjWs l = true →
      (buf.reverse ++ l) ≠ [] →
      ((buf.reverse ++ l).getLast?.all (fun c => !isPySpace c)) = true →
      (buf.getLast?.all (fun c => !isPySpace c)) = true →
      (buf = [] → l.head?.all (fun c => !isPySpace c) = true) →
      ∀ pc ∈ Chunker.splitSentencesAux l buf, pc ≠ [] ∧ noWsEnds pc = true := by
  induction l with
  | nil =>
    intro buf hadj hne hlast hbuflast hhead pc hpc
    simp only [Chunker.splitSentencesAux, List.mem_singleton] at hpc
    subst hpc
    have hbne : buf ≠ [] := by
      intro h0
      subst h0
      simp at hne
    constructor
    · simpa using hbne
    · unfold noWsEnds
      apply Bool.and_eq_true_iff.mpr
      constructor
      · rw [List.head?_reverse]
        exact hbuflast
      · simpa using hlast
  | cons c rest ih =>
    intro buf hadj hne hlast hbuflast hhead pc hpc
    cases buf with
    | nil =>
      have h1 : Chunker.splitSentencesAux (c :: rest) [] =
          Chunker.splitSentencesAux rest [c] := rfl
      rw [h1] at hpc
      refine ih [c] ?_ ?_ ?_ ?_ ?_ pc hpc
      · rw [noAdjWs_cons] at hadj
        exact (Bool.and_eq_true_iff.mp hadj).2
      · simp
      · simpa using hlast
      · have := hhead rfl
        simpa using this
      · intro h0
        cases h0
    | cons p b =>
      by_cases hsplit : (c = ' ' && sentenceTerminal p) = true
      · have hcp := hsplit
        simp only [Bool.and_eq_true, decide_eq_true_eq] at hcp
        obtain ⟨hc, hp⟩ := hcp
        subst hc
        have heq : Chunker.splitSentencesAux (' ' :: rest) (p :: b) =
            (p :: b).reverse :: Chunker.splitSentencesAux rest [] := by
          simp [Chunker.splitSentencesAux, hp]
        rw [heq] at hpc
        rcases List.mem_cons.mp hpc with h0 | h0
        · subst h0
          constructor
          · simp
          · unfold noWsEnds
            apply Bool.and_eq_true_iff.mpr
            constructor
            · rw [List.head?_reverse]
              exact hbuflast
            · rw [List.getLast?_reverse]
              simp [sentenceTerminal_not_ws hp]
        · have hrne : rest ≠ [] := by
            intro h0
            subst h0
            rw [List.getLast?_concat] at hlast
            rw [Option.all_some, show isPySpace ' ' = true from by decide] at hlast
            simp at hlast
          refine ih [] ?_ ?_ ?_ ?_ ?_ pc h0
          · rw [noAdjWs_cons] at hadj
            exact (Bool.and_eq_true_iff.mp hadj).2
          · simpa using hrne
          · rw [List.getLast?_append_of_ne_nil _ (List.cons_ne_nil ' ' rest),
                ← List.singleton_append,
                List.getLast?_append_of_ne_nil _ hrne] at hlast
            simpa using hlast
          · rfl
          · intro _
            rw [noAdjWs_cons] at hadj
            obtain ⟨hpair, _⟩ := Bool.and_eq_true_iff.mp hadj
            cases rest with
            | nil => rfl
            | cons x xs =>
              simp only [List.head?_cons, Option.all_some] at hpair ⊢
              rw [show isPySpace ' ' = true from by decide] at hpair
              simpa using hpair
      · have heq : Chunker.splitSentencesAux (c :: rest) (p :: b) =
            Chunker.splitSentencesAux rest (c :: p :: b) := by
          simp [Chunker.splitSentencesAux, hsplit]
        rw [heq] at hpc
        refine ih (c :: p :: b) ?_ ?_ ?_ ?_ ?_ pc hpc
        · rw [noAdjWs_cons] at hadj
          exact (Bool.and_eq_true_iff.mp hadj).2
        · simp
        · have harr : (c :: p :: b).reverse ++ rest = (p :: b).reverse ++ c :: rest := by
            simp [List.reverse_cons, List.append_assoc]
          rw [harr]
          exact hlast
        · rw [List.getLast?_cons_cons]
          exact hbuflast
        · intro h0
          cases h0

theorem mem_splitSentences {t s : String}
    (h : s ∈ Chunker.splitSentences t) : noWsEnds s.data = true ∧ s ≠ "" := by
  unfold Chunker.splitSentences at h
  obtain ⟨m, hm, rfl⟩ := List.mem_map.mp h
  obtain ⟨hmem, hne⟩ := List.mem_filter.mp hm
  obtain ⟨q, hq, rfl⟩ := List.mem_map.mp hmem
  refine ⟨noWsEnds_pyStripChars q, ?_⟩
  intro h0
  have hdat : pyStripChars q = [] := by
    have := congrArg String.data h0
    simpa using this
  rw [hdat] at hne
  simp at hne

theorem splitSentences_eq_pieces (t : String)
    (hgood : ∀ pc ∈ Chunker.splitSentencesAux t.data [],
      pc ≠ [] ∧ noWsEnds pc = true) :
    Chunker.splitSentences t = (Chunker.splitSentencesAux t.data []).map String.mk := by
  unfold Chunker.splitSentences
  have hmapid : (Chunker.splitSentencesAux t.data []).map pyStripChars =
      Chunker.splitSentencesAux t.data [] := by
    have hcongr : ∀ pc ∈ Chunker.splitSentencesAux t.data [],
        pyStripChars pc = id pc := by
      intro pc hpc
      exact pyStripChars_eq_self (hgood pc hpc).2
    rw [List.map_congr_left hcongr, List.map_id]
  rw [hmapid]
  have hfil : (Chunker.splitSentencesAux t.data []).filter (fun l => l ≠ []) =
      Chunker.splitSentencesAux t.data [] := by
    apply List.filter_eq_self.mpr
    intro pc hpc
    simpa using (hgood pc hpc).1
  rw [hfil]

theorem joinSp_data (ss : List String) :
    (joinSp ss).data = joinChar (ss.map String.data) := by
  induction ss with
  | nil => rfl
  | cons s rest ih =>
    cases rest with
    | nil => rfl
    | cons t r =>
      have h1 : joinSp (s :: t :: r) = s ++ " " ++ joinSp (t :: r) := rfl
      have h2 : joinChar ((s :: t :: r).map String.data) =
          s.data ++ ' ' :: joinChar ((t :: r).map String.data) := rfl
      rw [h1, h2, String.data_append, String.data_append, ih]
      have h3 : (" " : String).data = [' '] := rfl
      rw [h3]
      simp

/-! ### Lemmas about sentence grouping -/

theorem joinSp_cons_ne {x : String} {ys : List String} (h : ys ≠ []) :
    joinSp (x :: ys) = x ++ " " ++ joinSp ys := by
  cases ys with
  | nil => cases h rfl
  | cons y r => rfl

theorem noWsEnds_joinTwo {a s : String} (ha : noWsEnds a.data = true)
    (hs : noWsEnds s.data = true) (hane : a ≠ "") (hsne : s ≠ "") :
    noWsEnds ((a ++ " " ++ s).data) = true := by
  have hadata : a.data ≠ [] := fun h => hane (string_eq_empty_iff.mpr h)
  have hsdata : s.data ≠ [] := fun h => hsne (string_eq_empty_iff.mpr h)
  have hd : (a ++ " " ++ s).data = a.data ++ ' ' :: s.data := by
    rw [String.data_append, String.data_append]
    have h3 : (" " : String).data = [' '] := rfl
    rw [h3]
    simp
  rw [hd]
  unfold noWsEnds at ha hs ⊢
  obtain ⟨ha1, _⟩ := Bool.and_eq_true_iff.mp ha
  obtain ⟨_, hs2⟩ := Bool.and_eq_true_iff.mp hs
  apply Bool.and_eq_true_iff.mpr
  constructor
  · rw [List.head?_append]
    cases hh : a.data.head? with
    | none => exact absurd (List.head?_eq_none_iff.mp hh) hadata
    | some x =>
      rw [hh] at ha1
      simpa using ha1
  · rw [List.getLast?_append_of_ne_nil _ (List.cons_ne_nil ' ' s.data),
        ← List.singleton_append,
        List.getLast?_append_of_ne_nil _ hsdata]
    exact hs2

theorem appendTwo_ne_empty {a s : String} : a ++ " " ++ s ≠ "" := by
  intro h0
  have hd := congrArg String.data h0
  rw [String.data_append, String.data_append] at hd
  simp at hd

theorem groupAux_ne_nil (sents : List String) :
    ∀ buf : String, buf ≠ "" → noWsEnds buf.data = true →
      (∀ s ∈ sents, noWsEnds s.data = true ∧ s ≠ "") →
      Chunker.groupAux sents buf ≠ [] := by
  induction sents with
  | nil =>
    intro buf hbne hbw _
    simp only [Chunker.groupAux]
    rw [pyStrip_eq_self hbw]
    simp [hbne]
  | cons s rest ih =>
    intro buf hbne hbw hs
    have hsg := hs s (List.mem_cons_self s rest)
    have hrest : ∀ x ∈ rest, noWsEnds x.data = true ∧ x ≠ "" :=
      fun x hx => hs x (List.mem_cons_of_mem s hx)
    simp only [Chunker.groupAux]
    by_cases hlen : buf.length + s.length + 1 > Chunker.MAX_CHUNK_SIZE
    · rw [if_pos hlen]
      simp [hbne]
    · rw [if_neg hlen, if_pos hbne]
      exact ih _ appendTwo_ne_empty (noWsEnds_joinTwo hbw hsg.1 hbne hsg.2) hrest

theorem joinSp_groupAux (sents : List String) :
    ∀ buf : String,
      (∀ s ∈ sents, noWsEnds s.data = true ∧ s ≠ "") →
      noWsEnds buf.data = true →
      joinSp (Chunker.groupAux sents buf) =
        if buf = "" then joinSp sents else joinSp (buf :: sents) := by
  induction sents with
  | nil =>
    intro buf _ hbw
    simp only [Chunker.groupAux]
    rw [pyStrip_eq_self hbw]
    by_cases hb : buf = ""
    · subst hb
      simp [joinSp]
    · simp [hb, joinSp]
  | cons s rest ih =>
    intro buf hs hbw
    have hsg := hs s (List.mem_cons_self s rest)
    have hrest : ∀ x ∈ rest, noWsEnds x.data = true ∧ x ≠ "" :=
      fun x hx => hs x (List.mem_cons_of_mem s hx)
    simp only [Chunker.groupAux]
    by_cases hlen : buf.length + s.length + 1 > Chunker.MAX_CHUNK_SIZE
    · rw [if_pos hlen]
      by_cases hb : buf = ""
      · subst hb
        rw [if_neg (by simp), List.nil_append, ih s hrest hsg.1, if_neg hsg.2,
            if_pos rfl]
      · rw [if_pos hb, List.singleton_append, pyStrip_eq_self hbw,
            joinSp_cons_ne (groupAux_ne_nil rest s hsg.2 hsg.1 hrest),
            ih s hrest hsg.1, if_neg hsg.2, if_neg hb,
            joinSp_cons_ne (List.cons_ne_nil s rest)]
    · rw [if_neg hlen]
      by_cases hb : buf = ""
      · subst hb
        rw [if_neg (by simp), ih s hrest hsg.1, if_neg hsg.2, if_pos rfl]
      · rw [if_pos hb, ih (buf ++ " " ++ s) hrest
              (noWsEnds_joinTwo hbw hsg.1 hb hsg.2),
            if_neg appendTwo_ne_empty, if_neg hb]
        cases rest with
        | nil => rfl
        | cons t r =>
          rw [joinSp_cons_ne (List.cons_ne_nil t r),
              joinSp_cons_ne (List.cons_ne_nil s (t :: r)),
              joinSp_cons_ne (List.cons_ne_nil t r)]
          simp [String.append_assoc]

/-- C7: for every input text, joining the chunks of chunk_text with single
spaces reconstructs exactly the normalized input: no characters are dropped
or duplicated outside the sentence-split boundaries. -/
theorem chunk_text_join_reconstructs (text : String) :
    joinSp (Chunker.chunk_text text) = Chunker.normalize text := by
  by_cases hempty : pyStrip text = ""
  · rw [chunk_text_of_empty hempty, normalize_eq_empty_iff.mpr hempty]
    rfl
  · unfold Chunker.chunk_text
    rw [if_neg hempty]
    have htne : Chunker.normalize text ≠ "" :=
      fun h0 => hempty (normalize_eq_empty_iff.mp h0)
    have hdne : (Chunker.normalize text).data ≠ [] :=
      fun h0 => htne (string_eq_empty_iff.mpr h0)
    have hnw := noWsEnds_normalize text
    unfold noWsEnds at hnw
    obtain ⟨hnw1, hnw2⟩ := Bool.and_eq_true_iff.mp hnw
    have hgood : ∀ pc ∈ Chunker.splitSentencesAux (Chunker.normalize text).data [],
        pc ≠ [] ∧ noWsEnds pc = true :=
      splitSentencesAux_pieces_good _ [] (noAdjWs_normalize text)
        (by simpa using hdne) (by simpa using hnw2) rfl (fun _ => hnw1)
    have hsent := splitSentences_eq_pieces (Chunker.normalize text) hgood
    have hsents_good : ∀ s ∈ Chunker.splitSentences (Chunker.normalize text),
        noWsEnds s.data = true ∧ s ≠ "" := fun s hs => mem_splitSentences hs
    unfold Chunker.group
    rw [joinSp_groupAux _ "" hsents_good (by decide), if_pos rfl]
    apply String.ext
    rw [joinSp_data, hsent, List.map_map]
    have hid : (String.data ∘ String.mk) = id := rfl
    rw [hid, List.map_id, joinChar_splitSentencesAux]
    rfl

/-! ### Chunk sizes (claim C8) -/

theorem length_pyStrip_le (s : String) : (pyStrip s).length ≤ s.length :=
  length_pyStripChars_le s.data

theorem groupAux_chunk_le (sents : List String) :
    ∀ buf : String,
      (∀ s ∈ sents, s.length ≤ Chunker.MAX_CHUNK_SIZE) →
      buf.length ≤ Chunker.MAX_CHUNK_SIZE →
      ∀ c ∈ Chunker.groupAux sents buf, c.length ≤ Chunker.MAX_CHUNK_SIZE := by
  induction sents with
  | nil =>
    intro buf _ hb c hc
    simp only [Chunker.groupAux] at hc
    by_cases h : pyStrip buf ≠ ""
    · rw [if_pos h] at hc
      simp only [List.mem_singleton] at hc
      subst hc
      exact le_trans (length_pyStrip_le buf) hb
    · rw [if_neg h] at hc
      cases hc
  | cons s rest ih =>
    intro buf hs hb c hc
    have hsg := hs s (List.mem_cons_self s rest)
    have hrest : ∀ x ∈ rest, x.length ≤ Chunker.MAX_CHUNK_SIZE :=
      fun x hx => hs x (List.mem_cons_of_mem s hx)
    simp only [Chunker.groupAux] at hc
    by_cases hlen : buf.length + s.length + 1 > Chunker.MAX_CHUNK_SIZE
    · rw [if_pos hlen] at hc
      rcases List.mem_append.mp hc with hc | hc
      · by_cases hbne : buf ≠ ""
        · rw [if_pos hbne] at hc
          simp only [List.mem_singleton] at hc
          subst hc
          exact le_trans (length_pyStrip_le buf) hb
        · rw [if_neg hbne] at hc
          cases hc
      · exact ih s hrest hsg c hc
    · rw [if_neg hlen] at hc
      by_cases hbne : buf ≠ ""
      · rw [if_pos hbne] at hc
        refine ih _ hrest ?_ c hc
        rw [String.length_append, String.length_append]
        have h1 : (" " : String).length = 1 := rfl
        rw [h1]
        omega
      · rw [if_neg hbne] at hc
        exact ih s hrest hsg c hc

/-- C8: when every sentence of the normalized input fits the 600-character
budget, every chunk produced fits it too; and an input consisting of a single
oversized sentence yields exactly that sentence as its only chunk, unsplit. -/
theorem chunk_size_bounds (text : String) :
    ((∀ s ∈ Chunker.splitSentences (Chunker.normalize text),
        s.length ≤ Chunker.MAX_CHUNK_SIZE) →
      ∀ c ∈ Chunker.chunk_text text, c.length ≤ Chunker.MAX_CHUNK_SIZE) ∧
    (∀ s : String, Chunker.splitSentences (Chunker.normalize text) = [s] →
      s.length > Chunker.MAX_CHUNK_SIZE → Chunker.chunk_text text = [s]) := by
  constructor
  · intro hs c hc
    unfold Chunker.chunk_text at hc
    by_cases hempty : pyStrip text = ""
    · rw [if_pos hempty] at hc
      cases hc
    · rw [if_neg hempty] at hc
      exact groupAux_chunk_le _ "" hs (by decide) c hc
  · intro s hsent hbig
    have hmem : s ∈ Chunker.splitSentences (Chunker.normalize text) := by
      rw [hsent]
      exact List.mem_cons_self s []
    obtain ⟨hsw, hsne⟩ := mem_splitSentences hmem
    have hempty : ¬ pyStrip text = "" := by
      intro h0
      have hz : Chunker.normalize text = "" := normalize_eq_empty_iff.mpr h0
      rw [hz] at hsent
      have hnil : Chunker.splitSentences "" = [] := rfl
      rw [hnil] at hsent
      cases hsent
    unfold Chunker.chunk_text
    rw [if_neg hempty]
    unfold Chunker.group
    rw [hsent]
    simp only [Chunker.groupAux]
    have h0 : ("" : String).length = 0 := rfl
    rw [if_pos (by rw [h0]; omega), if_neg (by simp), List.nil_append]
    rw [pyStrip_eq_self hsw, if_pos hsne]

set_option maxRecDepth 4000 in
/-- Witness for C8 at concrete inputs: a small two-sentence text and a single
601-character sentence. -/
theorem chunk_size_bounds_witness :
    ("Hi there. Bye.".length ≤ Chunker.MAX_CHUNK_SIZE) ∧
    Chunker.chunk_text c8Big = [c8Big] :=
  ⟨(chunk_size_bounds c8Small).1 (by decide) "Hi there. Bye." (by decide),
   (chunk_size_bounds c8Big).2 c8Big (by decide) (by decide)⟩

/-! ### Search on an empty store (claim C5) -/

/-- C5: search on a store with an empty id map returns the empty sequence and
makes zero calls to the embedding collaborator. -/
theorem search_empty_store (embed : String → Except String Vec)
    (st : EngineState) (q : String) (k : Nat) (h : st.idMap = []) :
    EmbeddingEngine.search embed st q k = (.ok [], 0) := by
  unfold EmbeddingEngine.search
  rw [h]
  rfl

/-- Witness for C5: a fresh store, an embedding collaborator that would fail
if it were ever called. -/
theorem search_empty_store_witness :
    EmbeddingEngine.search (fun _ => .error "down") freshEngine "query" 5 =
      (.ok [], 0) :=
  search_empty_store _ freshEngine "query" 5 rfl

/-! ### Disabled writes (claim C9) -/

/-- C9: when the per-instance write flag or the process-wide write flag is
off, add returns not-written, leaves the whole state unchanged, and invokes
neither the chunker nor the vector index store. -/
theorem add_disabled_no_effects (amw : Bool) (embed : String → Except String Vec)
    (now : String) (st : MMState) (text source : String) (md : Meta)
    (h : st.allow_write = false ∨ amw = false) :
    MemoryManager.add amw embed now st text source md =
      { result := .ok false, state := st, chunkerCalls := 0, storeCalls := 0 } := by
  rcases h with h | h <;> simp [MemoryManager.add, h]

/-- Witness for C9: a state with the instance flag off. -/
theorem add_disabled_no_effects_witness :
    MemoryManager.add true (fun _ => .ok [1]) "now" c9St "sample text." "chat" [] =
      { result := .ok false, state := c9St, chunkerCalls := 0, storeCalls := 0 } :=
  add_disabled_no_effects true _ "now" c9St "sample text." "chat" [] (Or.inl rfl)

/-! ### Latest entries (claim C10) -/

/-- Counterexample for C10 as stated: latest 0 on a one-entry log returns the
whole log, not the empty sequence (Python slice [-0:] is [0:]). -/
theorem latest_zero_cex : MemoryManager.latest c10St 0 ≠ [] := by decide

/-- C10 amended: for n ≥ 1, latest n returns the last min(n, length) entries
in insertion order (a suffix of the log); latest 0 returns the entire log. -/
theorem latest_amended (st : MMState) (n : Nat) :
    (1 ≤ n →
      (MemoryManager.latest st n).length = min n st.memory.length ∧
      MemoryManager.latest st n <:+ st.memory) ∧
    MemoryManager.latest st 0 = st.memory := by
  constructor
  · intro hn
    unfold MemoryManager.latest
    rw [if_neg (by omega)]
    constructor
    · rw [List.length_drop]
      omega
    · exact List.drop_suffix _ _
  · unfold MemoryManager.latest
    rw [if_pos rfl]

/-- Witness for C10 amended, at n = 2 over a one-entry log. -/
theorem latest_amended_witness :
    (MemoryManager.latest c10St 2).length = min 2 c10St.memory.length ∧
    MemoryManager.latest c10St 2 <:+ c10St.memory :=
  (latest_amended c10St 2).1 (by decide)

/-! ### Failing add_chunk (claim C4) -/

/-- Counterexample for C4 as stated: a failing add_chunk does change a
durable artifact, namely the chunk text file written before the embedding
call. -/
theorem add_chunk_failure_cex :
    (EmbeddingEngine.add_chunk c4Embed freshEngine "hello" []).2.chunkFiles ≠
      freshEngine.chunkFiles := by decide

/-- C4 amended: when the embedding collaborator fails, add_chunk propagates
the wrapped error and leaves the id map, the index and the two persisted
index artifacts untouched; the only durable change is the chunk text file,
which is written before the embedding call. -/
theorem add_chunk_failure_amended (embed : String → Except String Vec)
    (st : EngineState) (text : String) (md : Meta) (e : String)
    (h : embed text = .error e) :
    (EmbeddingEngine.add_chunk embed st text md).1 =
        .error ("[Embedding Error] " ++ e) ∧
    (EmbeddingEngine.add_chunk embed st text md).2.idMap = st.idMap ∧
    (EmbeddingEngine.add_chunk embed st text md).2.index = st.index ∧
    (EmbeddingEngine.add_chunk embed st text md).2.diskIndex = st.diskIndex ∧
    (EmbeddingEngine.add_chunk embed st text md).2.diskMap = st.diskMap ∧
    (EmbeddingEngine.add_chunk embed st text md).2.chunkFiles =
      dictInsert st.chunkFiles
        ("chunk_" ++ toString (st.idMap.length + 1) ++ ".txt") text := by
  unfold EmbeddingEngine.add_chunk EmbeddingEngine.embed_text
  rw [h]
  exact ⟨rfl, rfl, rfl, rfl, rfl, rfl⟩

/-- Witness for C4 amended: the always-failing collaborator on a fresh
engine. -/
theorem add_chunk_failure_amended_witness :
    (EmbeddingEngine.add_chunk c4Embed freshEngine "hello" []).1 =
        .error ("[Embedding Error] " ++ "boom") ∧
    (EmbeddingEngine.add_chunk c4Embed freshEngine "hello" []).2.idMap =
        freshEngine.idMap ∧
    (EmbeddingEngine.add_chunk c4Embed freshEngine "hello" []).2.index =
        freshEngine.index ∧
    (EmbeddingEngine.add_chunk c4Embed freshEngine "hello" []).2.diskIndex =
        freshEngine.diskIndex ∧
    (EmbeddingEngine.add_chunk c4Embed freshEngine "hello" []).2.diskMap =
        freshEngine.diskMap ∧
    (EmbeddingEngine.add_chunk c4Embed freshEngine "hello" []).2.chunkFiles =
      dictInsert freshEngine.chunkFiles
        ("chunk_" ++ toString (freshEngine.idMap.length + 1) ++ ".txt") "hello" :=
  add_chunk_failure_amended c4Embed freshEngine "hello" [] "boom" rfl

/-! ### Persist/reload round trip (claim C1) -/

/-- C1: the pre-persist store answers the query with the stored record, the
reloaded store has the same index rows and a nonempty id map, yet the same
search returns the empty sequence, because JSON parsing turned the integer
keys of the id map into strings and search looks up integer row ids. -/
theorem roundtrip_search_bug :
    (EmbeddingEngine.search c1Embed c1Pre "hello" 1).1 =
        .ok [{ chunk_id := "chunk_1", text := "hello", metadata := [] }] ∧
    c1Post.index = c1Pre.index ∧
    c1Post.idMap ≠ [] ∧
    (EmbeddingEngine.search c1Embed c1Post "hello" 1).1 = .ok [] := by
  refine ⟨rfl, rfl, by decide, rfl⟩

/-! ### Identifier assignment across reload (claim C3) -/

/-- Counterexample for C3 as stated: after persist and reload, the index
still has its row 0 but the integer identifier 0 no longer addresses any
record of the reloaded id map (its keys are now strings). -/
theorem identifier_reload_cex :
    (EmbeddingEngine.load_index c3St).index.length = 1 ∧
    dictFind (EmbeddingEngine.load_index c3St).idMap (PyKey.pint 0) = none :=
  ⟨rfl, rfl⟩

theorem dictInsert_of_fresh {α β : Type} [DecidableEq α]
    {m : List (α × β)} {k : α} (h : ∀ p ∈ m, p.1 ≠ k) (v : β) :
    dictInsert m k v = m ++ [(k, v)] := by
  unfold dictInsert
  rw [if_neg ?_]
  rw [List.any_eq_true]
  rintro ⟨p, hp, hpk⟩
  exact h p hp (by simpa using hpk)

theorem add_chunk_ok_shape (f : String → Vec) (st : EngineState)
    (t : String) (m : Meta)
    (hfresh : ∀ p ∈ st.idMap, p.1 ≠ PyKey.pint (st.idMap.length : Int)) :
    EmbeddingEngine.add_chunk (fun s => .ok (f s)) st t m =
      (.ok (),
        { chunkFiles := dictInsert st.chunkFiles
            ("chunk_" ++ toString (st.idMap.length + 1) ++ ".txt") t,
          index := st.index ++ [f t],
          idMap := st.idMap ++
            [(PyKey.pint st.idMap.length, mkRec st.idMap.length t m)],
          diskIndex := some (st.index ++ [f t]),
          diskMap := some ((st.idMap ++
            [(PyKey.pint st.idMap.length, mkRec st.idMap.length t m)]).map
              (fun p => (jsonKey p.1, p.2))) }) := by
  have hins : dictInsert st.idMap (PyKey.pint (st.idMap.length : Int))
      (mkRec st.idMap.length t m) =
        st.idMap ++ [(PyKey.pint st.idMap.length, mkRec st.idMap.length t m)] :=
    dictInsert_of_fresh hfresh _
  simp [EmbeddingEngine.add_chunk, EmbeddingEngine.embed_text,
        EmbeddingEngine.save_index, mkRec] at hins ⊢
  rw [hins]
  simp

theorem shapeMapFrom_length (items : List (String × Meta)) :
    ∀ i, (shapeMapFrom i items).length = items.length := by
  induction items with
  | nil => intro i; rfl
  | cons a rest ih =>
    intro i
    cases a with
    | mk t m => simp [shapeMapFrom, ih]

theorem shapeMapFrom_keys (items : List (String × Meta)) :
    ∀ i, ∀ p ∈ shapeMapFrom i items,
      ∃ j : Nat, j < items.length ∧ p.1 = PyKey.pint (i + j) := by
  induction items with
  | nil => intro i p hp; cases hp
  | cons a rest ih =>
    intro i p hp
    cases a with
    | mk t m =>
      simp only [shapeMapFrom, List.mem_cons] at hp
      rcases hp with hp | hp
      · refine ⟨0, by simp, ?_⟩
        rw [hp]
        simp
      · obtain ⟨j, h1, h2⟩ := ih (i + 1) p hp
        refine ⟨j + 1, ?_, ?_⟩
        · simp only [List.length_cons]
          omega
        · rw [h2]
          congr 1
          omega

theorem shapeMapFrom_append (xt : String) (xm : Meta) (items : List (String × Meta)) :
    ∀ i, shapeMapFrom i (items ++ [(xt, xm)]) =
      shapeMapFrom i items ++
        [(PyKey.pint (i + items.length : Nat), mkRec (i + items.length) xt xm)] := by
  induction items with
  | nil => intro i; simp [shapeMapFrom]
  | cons a rest ih =>
    intro i
    cases a with
    | mk t m =>
      have hcons : ((t, m) :: rest) ++ [(xt, xm)] = (t, m) :: (rest ++ [(xt, xm)]) := rfl
      rw [hcons]
      show (PyKey.pint i, mkRec i t m) :: shapeMapFrom (i + 1) (rest ++ [(xt, xm)]) =
        ((PyKey.pint i, mkRec i t m) :: shapeMapFrom (i + 1) rest) ++
          [(PyKey.pint (i + ((t, m) :: rest).length : Nat),
            mkRec (i + ((t, m) :: rest).length) xt xm)]
      rw [ih (i + 1), List.cons_append, List.length_cons]
      have hn : i + 1 + rest.length = i + (rest.length + 1) := by omega
      rw [hn]

theorem shapeMapFrom_map_fst (items : List (String × Meta)) :
    ∀ i, (shapeMapFrom i items).map Prod.fst =
      (List.range items.length).map (fun j : Nat => PyKey.pint (i + j : Nat)) := by
  induction items with
  | nil => intro i; rfl
  | cons a rest ih =>
    intro i
    cases a with
    | mk t m =>
      simp only [shapeMapFrom, List.map_cons, List.length_cons,
        List.range_succ_eq_map, List.map_map]
      congr 1
      rw [ih (i + 1)]
      apply List.map_congr_left
      intro j hj
      simp only [Function.comp_apply]
      congr 1
      omega

theorem shapeMapFrom_find (items : List (String × Meta)) :
    ∀ i j, ∀ hj : j < items.length,
      dictFind (shapeMapFrom i items) (PyKey.pint (i + j)) =
        some (mkRec (i + j) (items.get ⟨j, hj⟩).1 (items.get ⟨j, hj⟩).2) := by
  induction items with
  | nil => intro i j hj; exact absurd hj (by simp)
  | cons a rest ih =>
    intro i j hj
    cases a with
    | mk t m =>
      cases j with
      | zero =>
        unfold dictFind shapeMapFrom
        rw [List.find?_cons_of_pos _ (by simp)]
        simp [mkRec]
      | succ j2 =>
        unfold dictFind shapeMapFrom
        rw [List.find?_cons_of_neg _ (by simp; omega)]
        have hn : i + (j2 + 1) = (i + 1) + j2 := by omega
        have hz : ((i : Int) + ((j2 + 1 : Nat) : Int)) = ((i + 1 : Nat) : Int) + (j2 : Int) := by
          omega
        rw [hn, hz]
        exact ih (i + 1) j2 (by simp only [List.length_cons] at hj; omega)

theorem shapeMapFrom_getElem (items : List (String × Meta)) :
    ∀ i j, ∀ hj : j < items.length,
      (shapeMapFrom i items)[j]? =
        some (PyKey.pint (i + j),
          mkRec (i + j) (items.get ⟨j, hj⟩).1 (items.get ⟨j, hj⟩).2) := by
  induction items with
  | nil => intro i j hj; exact absurd hj (by simp)
  | cons a rest ih =>
    intro i j hj
    cases a with
    | mk t m =>
      cases j with
      | zero => simp [shapeMapFrom]
      | succ j2 =>
        have hn : i + (j2 + 1) = (i + 1) + j2 := by omega
        have hz : ((i : Int) + ((j2 + 1 : Nat) : Int)) = ((i + 1 : Nat) : Int) + (j2 : Int) := by
          omega
        simp only [shapeMapFrom, List.getElem?_cons_succ]
        rw [hn, hz]
        exact ih (i + 1) j2 (by simp only [List.length_cons] at hj; omega)

theorem runAdds_append (f : String → Vec) (a : List (String × Meta)) :
    ∀ (st : EngineState) (b : List (String × Meta)),
      runAdds f st (a ++ b) = runAdds f (runAdds f st a) b := by
  induction a with
  | nil => intro st b; rfl
  | cons x rest ih =>
    intro st b
    cases x with
    | mk t m =>
      simp only [List.cons_append, runAdds]
      exact ih _ b

theorem runAdds_shape (f : String → Vec) (items : List (String × Meta)) :
    (runAdds f freshEngine items).idMap = shapeMapFrom 0 items ∧
    (runAdds f freshEngine items).index = items.map (fun p => f p.1) ∧
    (EmbeddingEngine.load_index (runAdds f freshEngine items)).index =
      items.map (fun p => f p.1) ∧
    (EmbeddingEngine.load_index (runAdds f freshEngine items)).idMap =
      (shapeMapFrom 0 items).map (fun p => (PyKey.pstr (jsonKey p.1), p.2)) := by
  induction items using List.reverseRecOn with
  | nil => exact ⟨rfl, rfl, rfl, rfl⟩
  | append_singleton l x ih =>
    obtain ⟨h1, h2, -, -⟩ := ih
    cases x with
    | mk t m =>
      have hfresh : ∀ p ∈ (runAdds f freshEngine l).idMap,
          p.1 ≠ PyKey.pint ((runAdds f freshEngine l).idMap.length : Int) := by
        intro p hp
        rw [h1] at hp
        obtain ⟨j, hj, hpj⟩ := shapeMapFrom_keys l 0 p hp
        rw [hpj, h1, shapeMapFrom_length l 0]
        intro hcontra
        have hint := PyKey.pint.inj hcontra
        omega
      have hstep := add_chunk_ok_shape f (runAdds f freshEngine l) t m hfresh
      have hrun : runAdds f freshEngine (l ++ [(t, m)]) =
          (EmbeddingEngine.add_chunk (fun s => .ok (f s))
            (runAdds f freshEngine l) t m).2 := by
        rw [runAdds_append]
        rfl
      have hstate : runAdds f freshEngine (l ++ [(t, m)]) =
          { chunkFiles := dictInsert (runAdds f freshEngine l).chunkFiles
              ("chunk_" ++ toString ((runAdds f freshEngine l).idMap.length + 1)
                ++ ".txt") t,
            index := (runAdds f freshEngine l).index ++ [f t],
            idMap := (runAdds f freshEngine l).idMap ++
              [(PyKey.pint (runAdds f freshEngine l).idMap.length,
                mkRec (runAdds f freshEngine l).idMap.length t m)],
            diskIndex := some ((runAdds f freshEngine l).index ++ [f t]),
            diskMap := some (((runAdds f freshEngine l).idMap ++
              [(PyKey.pint (runAdds f freshEngine l).idMap.length,
                mkRec (runAdds f freshEngine l).idMap.length t m)]).map
                  (fun p => (jsonKey p.1, p.2))) } := by
        rw [hrun, hstep]
      refine ⟨?_, ?_, ?_, ?_⟩
      · rw [hstate]
        show (runAdds f freshEngine l).idMap ++
            [(PyKey.pint (runAdds f freshEngine l).idMap.length,
              mkRec (runAdds f freshEngine l).idMap.length t m)] =
          shapeMapFrom 0 (l ++ [(t, m)])
        rw [h1, shapeMapFrom_length l 0, shapeMapFrom_append t m l 0]
        simp
      · rw [hstate]
        show (runAdds f freshEngine l).index ++ [f t] =
          (l ++ [(t, m)]).map (fun p => f p.1)
        rw [h2, List.map_append]
        rfl
      · rw [hstate]
        show (runAdds f freshEngine l).index ++ [f t] =
          (l ++ [(t, m)]).map (fun p => f p.1)
        rw [h2, List.map_append]
        rfl
      · rw [hstate]
        show (((runAdds f freshEngine l).idMap ++
            [(PyKey.pint (runAdds f freshEngine l).idMap.length,
              mkRec (runAdds f freshEngine l).idMap.length t m)]).map
                (fun p => (jsonKey p.1, p.2))).map
                  (fun p => (PyKey.pstr p.1, p.2)) =
          (shapeMapFrom 0 (l ++ [(t, m)])).map
            (fun p => (PyKey.pstr (jsonKey p.1), p.2))
        rw [h1, shapeMapFrom_length l 0, shapeMapFrom_append t m l 0,
          List.map_map]
        simp

/-- C3 amended: in process, after n successful add_chunk calls from a fresh
engine the identifiers are the integers 0..n-1 in insertion order, identifier
i addresses the record of the i-th added chunk and row i of the index holds
its vector; the reload preserves the index rows and the entry order, but
entry i of the reloaded map carries the JSON string key toString i rather
than the integer i. -/
theorem identifier_assignment (f : String → Vec) (items : List (String × Meta)) :
    (runAdds f freshEngine items).idMap.map Prod.fst =
      (List.range items.length).map (fun i : Nat => PyKey.pint i) ∧
    (runAdds f freshEngine items).index.length = items.length ∧
    (∀ i, ∀ hi : i < items.length,
      dictFind (runAdds f freshEngine items).idMap (PyKey.pint i) =
          some (mkRec i (items.get ⟨i, hi⟩).1 (items.get ⟨i, hi⟩).2) ∧
      (runAdds f freshEngine items).index[i]? =
          some (f (items.get ⟨i, hi⟩).1)) ∧
    (EmbeddingEngine.load_index (runAdds f freshEngine items)).index =
      (runAdds f freshEngine items).index ∧
    (∀ i, ∀ hi : i < items.length,
      (EmbeddingEngine.load_index (runAdds f freshEngine items)).idMap[i]? =
        some (PyKey.pstr (toString i),
          mkRec i (items.get ⟨i, hi⟩).1 (items.get ⟨i, hi⟩).2)) := by
  obtain ⟨h1, h2, h3, h4⟩ := runAdds_shape f items
  refine ⟨?_, ?_, ?_, ?_, ?_⟩
  · rw [h1]
    have := shapeMapFrom_map_fst items 0
    simpa using this
  · rw [h2]
    simp
  · intro i hi
    constructor
    · rw [h1]
      have := shapeMapFrom_find items 0 i hi
      simpa using this
    · rw [h2, List.getElem?_map, List.getElem?_eq_getElem hi]
      rfl
  · rw [h3, h2]
  · intro i hi
    rw [h4, List.getElem?_map]
    have hg := shapeMapFrom_getElem items 0 i hi
    simp only [Nat.cast_zero, Int.zero_add, Nat.zero_add] at hg
    rw [hg]
    rfl

/-! ### Failing ingestion (claim C2) -/

theorem canonical_fresh {m : List (PyKey × Record)} (hc : CanonicalMap m) :
    ∀ p ∈ m, p.1 ≠ PyKey.pint (m.length : Int) := by
  intro p hp
  obtain ⟨⟨j, hj⟩, hpj⟩ := List.mem_iff_get.mp hp
  rw [← hpj, hc j hj]
  intro hcontra
  have hint := PyKey.pint.inj hcontra
  omega

theorem canonical_nil : CanonicalMap [] := by
  intro j hj
  simp at hj

theorem canonical_snoc {m : List (PyKey × Record)} (hc : CanonicalMap m)
    (r : Record) : CanonicalMap (m ++ [(PyKey.pint (m.length : Int), r)]) := by
  intro j hj
  rw [List.get_eq_getElem]
  rcases Nat.lt_or_ge j m.length with h | h
  · rw [List.getElem_append_left h]
    have := hc j h
    rw [List.get_eq_getElem] at this
    exact this
  · have hj2 : j = m.length := by
      simp only [List.length_append, List.length_singleton] at hj
      omega
    subst hj2
    rw [List.getElem_concat_length _ _ _ rfl]

theorem add_chunk_ok_shape2 (embed : String → Except String Vec)
    (st : EngineState) (t : String) (m : Meta) (v : Vec)
    (hv : EmbeddingEngine.embed_text embed t = .ok v)
    (hfresh : ∀ p ∈ st.idMap, p.1 ≠ PyKey.pint (st.idMap.length : Int)) :
    EmbeddingEngine.add_chunk embed st t m =
      (.ok (),
        { chunkFiles := dictInsert st.chunkFiles
            ("chunk_" ++ toString (st.idMap.length + 1) ++ ".txt") t,
          index := st.index ++ [v],
          idMap := st.idMap ++
            [(PyKey.pint st.idMap.length, mkRec st.idMap.length t m)],
          diskIndex := some (st.index ++ [v]),
          diskMap := some ((st.idMap ++
            [(PyKey.pint st.idMap.length, mkRec st.idMap.length t m)]).map
              (fun p => (jsonKey p.1, p.2))) }) := by
  have hins : dictInsert st.idMap (PyKey.pint (st.idMap.length : Int))
      (mkRec st.idMap.length t m) =
        st.idMap ++ [(PyKey.pint st.idMap.length, mkRec st.idMap.length t m)] :=
    dictInsert_of_fresh hfresh _
  simp [EmbeddingEngine.add_chunk, EmbeddingEngine.save_index, hv, mkRec]
    at hins ⊢
  rw [hins]
  simp

theorem add_chunk_error_inv (embed : String → Except String Vec)
    (st : EngineState) (t : String) (m : Meta) {e1 : String} {st1 : EngineState}
    (h : EmbeddingEngine.add_chunk embed st t m = (.error e1, st1)) :
    EmbeddingEngine.embed_text embed t = .error e1 ∧
    st1.idMap = st.idMap ∧ st1.index = st.index := by
  unfold EmbeddingEngine.add_chunk at h
  cases hemb : EmbeddingEngine.embed_text embed t with
  | error e2 =>
    rw [hemb] at h
    obtain ⟨h1, h2⟩ := Prod.mk.injEq _ _ _ _ ▸ h
    injection h1 with h1
    subst h1
    rw [← h2]
    exact ⟨rfl, rfl, rfl⟩
  | ok v =>
    rw [hemb] at h
    simp at h

theorem add_chunk_ok_inv (embed : String → Except String Vec)
    (st : EngineState) (t : String) (m : Meta) {u : Unit} {st2 : EngineState}
    (h : EmbeddingEngine.add_chunk embed st t m = (.ok u, st2))
    (hc : CanonicalMap st.idMap) :
    st2.idMap.length = st.idMap.length + 1 ∧
    st2.index.length = st.index.length + 1 ∧
    CanonicalMap st2.idMap := by
  cases hemb : EmbeddingEngine.embed_text embed t with
  | error e2 =>
    unfold EmbeddingEngine.add_chunk at h
    rw [hemb] at h
    simp at h
  | ok v =>
    have hshape := add_chunk_ok_shape2 embed st t m v hemb (canonical_fresh hc)
    rw [hshape] at h
    obtain ⟨-, h2⟩ := Prod.mk.injEq _ _ _ _ ▸ h
    rw [← h2]
    refine ⟨?_, ?_, ?_⟩
    · show (st.idMap ++
        [(PyKey.pint st.idMap.length, mkRec st.idMap.length t m)]).length =
          st.idMap.length + 1
      simp
    · show (st.index ++ [v]).length = st.index.length + 1
      simp
    · exact canonical_snoc hc _

theorem addChunksLoop_error (embed : String → Except String Vec) (meta : Meta) :
    ∀ (chunks : List String) (eng : EngineState), CanonicalMap eng.idMap →
      ∀ e, (addChunksLoop embed meta eng chunks).result = .error e →
        ∃ i, ∃ hi : i < chunks.length,
          EmbeddingEngine.embed_text embed (chunks.get ⟨i, hi⟩) = .error e ∧
          (addChunksLoop embed meta eng chunks).eng.idMap.length =
            eng.idMap.length + i ∧
          (addChunksLoop embed meta eng chunks).eng.index.length =
            eng.index.length + i := by
  intro chunks
  induction chunks with
  | nil =>
    intro eng hc e he
    simp [addChunksLoop] at he
  | cons c rest ih =>
    intro eng hc e he
    cases hadd : EmbeddingEngine.add_chunk embed eng c meta with
    | mk res eng1 =>
      cases res with
      | error e0 =>
        have hout : addChunksLoop embed meta eng (c :: rest) =
            { result := .error e0, eng := eng1, recs := [], calls := 1 } := by
          simp [addChunksLoop, hadd]
        obtain ⟨hfail, h1, h2⟩ := add_chunk_error_inv embed eng c meta hadd
        have he0 : e0 = e := by
          rw [hout] at he
          injection he
        refine ⟨0, by simp, ?_, ?_, ?_⟩
        · rw [← he0]
          exact hfail
        · rw [hout, h1]
          omega
        · rw [hout, h2]
          omega
      | ok u =>
        have hout : addChunksLoop embed meta eng (c :: rest) =
            { result := (addChunksLoop embed meta eng1 rest).result,
              eng := (addChunksLoop embed meta eng1 rest).eng,
              recs := { text := c, metadata := meta } ::
                (addChunksLoop embed meta eng1 rest).recs,
              calls := (addChunksLoop embed meta eng1 rest).calls + 1 } := by
          simp [addChunksLoop, hadd]
        obtain ⟨hl1, hl2, hc1⟩ := add_chunk_ok_inv embed eng c meta hadd hc
        have he2 : (addChunksLoop embed meta eng1 rest).result = .error e := by
          rw [hout] at he
          exact he
        obtain ⟨i, hi, hfail, hm1, hm2⟩ := ih eng1 hc1 e he2
        refine ⟨i + 1, by simp only [List.length_cons]; omega, ?_, ?_, ?_⟩
        · exact hfail
        · rw [hout]
          show (addChunksLoop embed meta eng1 rest).eng.idMap.length =
            eng.idMap.length + (i + 1)
          rw [hm1, hl1]
          omega
        · rw [hout]
          show (addChunksLoop embed meta eng1 rest).eng.index.length =
            eng.index.length + (i + 1)
          rw [hm2, hl2]
          omega

set_option maxRecDepth 100000 in
/-- Counterexample for C2 as stated: on a two-chunk text whose second chunk
fails to embed, add propagates the error and leaves the log untouched, but
the vector index has gained the first chunk. -/
theorem add_failure_cex :
    c2Out.result = .error ("[Embedding Error] " ++ "quota") ∧
    c2Out.state.memory = [] ∧
    c2Out.state.eng.idMap.length = 1 ∧
    c2Out.state.eng.index.length = 1 :=
  ⟨rfl, rfl, rfl, rfl⟩

theorem MMadd_loop_error_eq (amw : Bool) (embed : String → Except String Vec)
    (now : String) (st : MMState) (text source : String) (md : Meta)
    (e0 : String) (hw : ¬(!st.allow_write || !amw) = true)
    (hres : (addChunksLoop embed (mergeMeta now source md) st.eng
      (Chunker.chunk_text text)).result = .error e0) :
    MemoryManager.add amw embed now st text source md =
      { result := .error e0,
        state := { st with eng := (addChunksLoop embed (mergeMeta now source md)
          st.eng (Chunker.chunk_text text)).eng },
        chunkerCalls := 1,
        storeCalls := (addChunksLoop embed (mergeMeta now source md) st.eng
          (Chunker.chunk_text text)).calls } := by
  unfold MemoryManager.add
  rw [if_neg hw]
  simp only [hres]

theorem MMadd_loop_ok_result (amw : Bool) (embed : String → Except String Vec)
    (now : String) (st : MMState) (text source : String) (md : Meta)
    (u : Unit) (hw : ¬(!st.allow_write || !amw) = true)
    (hres : (addChunksLoop embed (mergeMeta now source md) st.eng
      (Chunker.chunk_text text)).result = .ok u) :
    (MemoryManager.add amw embed now st text source md).result = .ok true := by
  unfold MemoryManager.add
  rw [if_neg hw]
  simp only [hres]

/-- C2 amended: when the embedding collaborator fails during add, the error
surfaces and the Memory Log (in memory, on disk and its backup) is exactly as
before; the chunks embedded before the failing chunk remain added: if chunk i
(0-based) is the one that failed, the id map and the index each grew by
exactly i entries. -/
theorem add_failure_amended (amw : Bool) (embed : String → Except String Vec)
    (now : String) (st : MMState) (text source : String) (md : Meta)
    (e : String) (hc : CanonicalMap st.eng.idMap)
    (he : (MemoryManager.add amw embed now st text source md).result = .error e) :
    (MemoryManager.add amw embed now st text source md).state.memory =
        st.memory ∧
    (MemoryManager.add amw embed now st text source md).state.diskMemory =
        st.diskMemory ∧
    (MemoryManager.add amw embed now st text source md).state.backupMemory =
        st.backupMemory ∧
    ∃ i, ∃ hi : i < (Chunker.chunk_text text).length,
      EmbeddingEngine.embed_text embed
          ((Chunker.chunk_text text).get ⟨i, hi⟩) = .error e ∧
      (MemoryManager.add amw embed now st text source md).state.eng.idMap.length =
          st.eng.idMap.length + i ∧
      (MemoryManager.add amw embed now st text source md).state.eng.index.length =
          st.eng.index.length + i := by
  by_cases hw : (!st.allow_write || !amw) = true
  · have hnone : MemoryManager.add amw embed now st text source md =
        { result := .ok false, state := st, chunkerCalls := 0, storeCalls := 0 } := by
      unfold MemoryManager.add
      rw [if_pos hw]
    rw [hnone] at he
    simp at he
  · cases hres : (addChunksLoop embed (mergeMeta now source md) st.eng
        (Chunker.chunk_text text)).result with
    | ok u =>
      have hr := MMadd_loop_ok_result amw embed now st text source md u hw hres
      rw [hr] at he
      simp at he
    | error e0 =>
      have heq := MMadd_loop_error_eq amw embed now st text source md e0 hw hres
      rw [heq] at he
      have he0 : e0 = e := by simpa using he
      subst he0
      rw [heq]
      refine ⟨rfl, rfl, rfl, ?_⟩
      exact addChunksLoop_error embed (mergeMeta now source md)
        (Chunker.chunk_text text) st.eng hc e0 hres

set_option maxRecDepth 100000 in
/-- Witness for C2 amended: the failing two-chunk ingestion leaves the log
untouched. -/
theorem add_failure_amended_witness :
    (MemoryManager.add true c2Embed "2026-01-01 00:00:00" c2MM c2Text
      "chat" []).state.memory = c2MM.memory :=
  (add_failure_amended true c2Embed "2026-01-01 00:00:00" c2MM c2Text
    "chat" [] ("[Embedding Error] " ++ "quota") canonical_nil rfl).1

/-- Witness for C3 amended at two concrete adds. -/
theorem identifier_assignment_witness :
    dictFind (runAdds c3f freshEngine c3Items).idMap (PyKey.pint 0) =
        some (mkRec 0 "alpha" []) ∧
    (EmbeddingEngine.load_index (runAdds c3f freshEngine c3Items)).idMap[1]? =
        some (PyKey.pstr (toString 1), mkRec 1 "beta" []) :=
  ⟨((identifier_assignment c3f c3Items).2.2.1 0 (by decide)).1,
   (identifier_assignment c3f c3Items).2.2.2.2 1 (by decide)⟩

/-! ### Retrieval facade (claim C6) -/

theorem specFirstMatches_eq (p : MemoryEntry → Bool) :
    ∀ (l : List MemoryEntry) (k : Nat),
      (l.filter p).take k = specFirstMatches p k l := by
  intro l
  induction l with
  | nil => intro k; simp [specFirstMatches]
  | cons e rest ih =>
    intro k
    cases k with
    | zero =>
      cases hp : p e <;> simp [specFirstMatches]
    | succ k2 =>
      by_cases hp : p e = true
      · rw [List.filter_cons_of_pos hp, List.take_succ_cons]
        show e :: (rest.filter p).take k2 = specFirstMatches p (k2 + 1) (e :: rest)
        rw [show specFirstMatches p (k2 + 1) (e :: rest) =
            e :: specFirstMatches p k2 rest from by simp [specFirstMatches, hp]]
        rw [ih k2]
      · rw [List.filter_cons_of_neg hp]
        rw [show specFirstMatches p (k2 + 1) (e :: rest) =
            specFirstMatches p (k2 + 1) rest from by simp [specFirstMatches, hp]]
        exact ih (k2 + 1)

theorem specFirstMatches_length_le (p : MemoryEntry → Bool) :
    ∀ (l : List MemoryEntry) (k : Nat),
      (specFirstMatches p k l).length ≤ k := by
  intro l
  induction l with
  | nil => intro k; simp [specFirstMatches]
  | cons e rest ih =>
    intro k
    cases k with
    | zero => simp [specFirstMatches]
    | succ k2 =>
      by_cases hp : p e = true
      · simp only [specFirstMatches, hp, if_true, List.length_cons]
        have := ih k2
        omega
      · simp only [specFirstMatches, hp, if_false]
        exact ih (k2 + 1)

theorem specFirstMatches_sublist (p : MemoryEntry → Bool) :
    ∀ (l : List MemoryEntry) (k : Nat),
      (specFirstMatches p k l).Sublist l := by
  intro l
  induction l with
  | nil => intro k; simp [specFirstMatches]
  | cons e rest ih =>
    intro k
    cases k with
    | zero => simp [specFirstMatches]
    | succ k2 =>
      by_cases hp : p e = true
      · simp only [specFirstMatches, hp, if_true]
        exact List.cons_sublist_cons.mpr (ih k2)
      · simp only [specFirstMatches, hp, if_false]
        exact List.Sublist.cons e (ih (k2 + 1))

theorem specFirstMatches_all (p : MemoryEntry → Bool) :
    ∀ (l : List MemoryEntry) (k : Nat),
      ∀ x ∈ specFirstMatches p k l, p x = true := by
  intro l
  induction l with
  | nil => intro k x hx; simp [specFirstMatches] at hx
  | cons e rest ih =>
    intro k x hx
    cases k with
    | zero => simp [specFirstMatches] at hx
    | succ k2 =>
      by_cases hp : p e = true
      · simp only [specFirstMatches, hp, if_true, List.mem_cons] at hx
        rcases hx with hx | hx
        · rw [hx]
          exact hp
        · exact ih k2 x hx
      · simp only [specFirstMatches, hp, if_false] at hx
        exact ih (k2 + 1) x hx

/-- C6: whenever the semantic search returns a nonempty result list the
facade returns it verbatim; whenever it returns the empty list the facade
returns exactly the first k log entries, in log order, whose full text
contains the query case-insensitively, and at most k of them. -/
theorem facade_search_spec (embed : String → Except String Vec) (st : MMState)
    (q : String) (k : Nat) (rs : List Record) (c : Nat)
    (hok : EmbeddingEngine.search embed st.eng q k = (.ok rs, c)) :
    (rs ≠ [] → MemoryManager.search embed st q k = .ok (rs.map .fromIndex)) ∧
    (rs = [] →
      MemoryManager.search embed st q k =
        .ok ((specFirstMatches (entryMatches q) k st.memory).map .fromLog) ∧
      (specFirstMatches (entryMatches q) k st.memory).length ≤ k ∧
      (specFirstMatches (entryMatches q) k st.memory).Sublist st.memory ∧
      ∀ en ∈ specFirstMatches (entryMatches q) k st.memory,
        entryMatches q en = true) := by
  constructor
  · intro hne
    have hie : rs.isEmpty = false := by
      cases rs with
      | nil => cases hne rfl
      | cons a l => rfl
    unfold MemoryManager.search
    rw [hok]
    simp [hie]
  · intro hnil
    subst hnil
    refine ⟨?_, specFirstMatches_length_le _ _ _,
      specFirstMatches_sublist _ _ _, specFirstMatches_all _ _ _⟩
    unfold MemoryManager.search
    rw [hok, ← specFirstMatches_eq]
    rfl

/-- Witness for C6: an empty index forces the fallback over a two-entry log;
the embedding collaborator is never consulted. -/
theorem facade_search_spec_witness :
    MemoryManager.search (fun _ => .error "down") c6St "tex" 5 =
      .ok ((specFirstMatches (entryMatches "tex") 5 c6St.memory).map .fromLog) :=
  ((facade_search_spec (fun _ => .error "down") c6St "tex" 5 [] 0 rfl).2 rfl).1

end Ron
